import Mathlib

/-!
Verification of the xv6-derived teaching kernel in this repository.

Shallow embedding of the kernel routines the claims concern:
  * the system-call dispatcher's errno handling (kernel/syscall.c `syscall`,
    kernel/sysproc.c `sys_geterrno`, `sys_getpid`),
  * the inode allocator's type validation (kernel/fs.c `ialloc`),
  * the multi-level block mapper and inode read path (kernel/fs.c `bmap`,
    `readi`, `balloc`),
  * path-element scanning and path resolution with symbolic links
    (kernel/fs.c `skipelem`, `namex`),
  * the priority selector, MLFQ enqueue on fork, and `wakeup`
    (kernel/scheduler_ext.c, kernel/proc.c),
  * the on-disk inode record layout (kernel/fs.h `struct dinode`, `IPB`).

Machine integers are modelled as `Nat`/`Int`; the C `panic` paths are
modelled as `Option.none`; functions returning error codes return `Int`
(negative = error) exactly as the source does.
-/

namespace Xv6

/-! ## File-system constants (kernel/fs.h) -/

/-- Block size in bytes (`#define BSIZE 4096`). -/
def BSIZE : Nat := 4096

/-- Number of direct block pointers (`#define NDIRECT 10`). -/
def NDIRECT : Nat := 10

/-- Entries per indirect block (`#define NINDIRECT (BSIZE / sizeof(uint))`,
with `sizeof(uint) = 4`). -/
def NINDIRECT : Nat := BSIZE / 4

/-- `#define NINDIRECT2 (NINDIRECT * NINDIRECT)`. -/
def NINDIRECT2 : Nat := NINDIRECT * NINDIRECT

/-- `#define NINDIRECT3 (NINDIRECT * NINDIRECT * NINDIRECT)`. -/
def NINDIRECT3 : Nat := NINDIRECT * NINDIRECT * NINDIRECT

/-- `#define MAXFILE (NDIRECT + NINDIRECT + NINDIRECT2 + NINDIRECT3)`. -/
def MAXFILE : Nat := NDIRECT + NINDIRECT + NINDIRECT2 + NINDIRECT3

/-- Maximum length of a directory-entry name (`#define DIRSIZ 62`). -/
def DIRSIZ : Nat := 62

/-- Root inode number (`#define ROOTINO 1`). -/
def ROOTINO : Nat := 1

/-! ## Inode type tags.

Modelled from the spec: `kernel/stat.h` is not present under `src/`; the
spec's data model lists `type ∈ {free, file, dir, device, symlink}` and
`kernel/fs.h` documents the same set (`T_FILE, T_DIR, T_DEVICE,
T_SYMLINK`), with 0 standing for a free dinode.  Only distinctness of the
tags matters to the claims; the numeric values follow stock xv6. -/

def T_DIR : Int := 1
def T_FILE : Int := 2
def T_DEVICE : Int := 3
def T_SYMLINK : Int := 4

/-! ## Error codes (kernel/errno.h) -/

def EOK : Int := 0
def ENOENT : Int := 2
def EINVAL : Int := 22
def ENOSYS : Int := 38
def EFS_INODE_FULL : Int := 128

/-! ## On-disk inode layout (kernel/fs.h `struct dinode`)

The record is embedded as its C field list, each field contributing
`(size, alignment)` in bytes; `structSize` computes the C layout rule
(each field placed at the next multiple of its alignment, total size
rounded up to the maximal alignment). -/

/-- Round `off` up to the next multiple of `a`. -/
def alignUp (off a : Nat) : Nat := a * ((off + a - 1) / a)

/-- Lay out a C struct given the `(size, alignment)` of each field in
order; returns `(sizeWithoutTailPad, maxAlignment)`. -/
def layoutFields : List (Nat × Nat) → Nat × Nat
  | [] => (0, 1)
  | f :: fs =>
    let rec go (off amax : Nat) : List (Nat × Nat) → Nat × Nat
      | [] => (off, amax)
      | (sz, al) :: rest => go (alignUp off al + sz) (max amax al) rest
    go 0 1 (f :: fs)

/-- Total size of a C struct with the given field list. -/
def structSize (fs : List (Nat × Nat)) : Nat :=
  let (off, amax) := layoutFields fs
  alignUp off amax

/-- Field list of `struct dinode` (kernel/fs.h:84-103): four `short`s,
`uint size`, `uint addrs[NDIRECT+3]`, two `uint16`, four `uint32`, and
`char padding[44]`. -/
def dinodeFields : List (Nat × Nat) :=
  [(2, 2), (2, 2), (2, 2), (2, 2),        -- type, major, minor, nlink
   (4, 4),                                -- size
   ((NDIRECT + 3) * 4, 4),                -- addrs[13]
   (2, 2), (2, 2),                        -- mode, uid
   (4, 4), (4, 4), (4, 4), (4, 4),        -- atime, mtime, ctime, blocks
   (44, 1)]                               -- padding[44]

/-- `sizeof(struct dinode)`. -/
def dinodeSize : Nat := structSize dinodeFields

/-- Inodes per block (`#define IPB (BSIZE / sizeof(struct dinode))`). -/
def IPB : Nat := BSIZE / dinodeSize

/-! ## System-call dispatcher errno convention (kernel/syscall.c `syscall`)

The per-process state the dispatcher touches: the last-error field
`errno` and (for `getpid`) the process id.  `dispatch st ret` performs the
post-processing the dispatcher applies to a handler's signed result `ret`
(kernel/syscall.c:463-482): negative result stores its magnitude into
`errno` and writes `-1` into the user return register; otherwise it
clears `errno` and writes the raw result. -/

structure PErrState where
  errno : Int
  pid : Int
  deriving DecidableEq, Repr

/-- Dispatcher post-processing of a handler result; returns the new
process state and the value written to the user's `a0`. -/
def dispatch (st : PErrState) (ret : Int) : PErrState × Int :=
  if ret < 0 then ({ st with errno := -ret }, -1)
  else ({ st with errno := EOK }, ret)

/-- kernel/sysproc.c `sys_geterrno`: returns `myproc()->errno`. -/
def sys_geterrno (st : PErrState) : Int := st.errno

/-- kernel/sysproc.c `sys_getpid`: returns `myproc()->pid`. -/
def sys_getpid (st : PErrState) : Int := st.pid

/-- A full `geterrno` system call: the handler result fed through the
dispatcher. -/
def doGeterrno (st : PErrState) : PErrState × Int := dispatch st (sys_geterrno st)

/-- A full `getpid` system call through the dispatcher. -/
def doGetpid (st : PErrState) : PErrState × Int := dispatch st (sys_getpid st)

/-! ## Inode allocation type check (kernel/fs.c `ialloc`)

`ialloc` scans dinodes `1 .. ninodes-1` for a free slot after validating
the requested type; it returns an error pointer carrying a negative code
on failure (`ERR_PTR_CODE`).  The dinode table is embedded as the list of
on-disk types indexed by inode number.  Device I/O errors are outside the
embedding (the buffer cache model cannot fail), so the `bp == 0` branch
does not arise. -/

/-- Result of `ialloc`: either a negative error code (`ERR_PTR_CODE`) or
the allocated inode number together with the updated dinode type table. -/
def ialloc (dinodeTypes : List Int) (type : Int) : Except Int (Nat × List Int) :=
  if type ≠ T_FILE ∧ type ≠ T_DIR ∧ type ≠ T_DEVICE then
    .error (-EINVAL)
  else
    let rec scan (inum : Nat) (rest : List Int) : Except Int (Nat × List Int) :=
      match rest with
      | [] => .error (-EFS_INODE_FULL)
      | t :: ts =>
        if t = 0 then .ok (inum, dinodeTypes.set inum type)
        else scan (inum + 1) ts
    scan 1 (dinodeTypes.drop 1)

/-! ## Process table (kernel/proc.h)

Only the PCB fields the claims touch are carried: `state`, `chan`,
`priority`, `mlfq_level`, `pid`.  Sleep channels (`void *chan`) are
opaque tokens, embedded as `Nat`; a PCB slot is named by its index in
the process table list. -/

inductive Procstate where
  | UNUSED | USED | SLEEPING | RUNNABLE | RUNNING | ZOMBIE
  deriving DecidableEq, Repr

structure Pcb where
  state : Procstate
  chan : Nat
  pid : Nat
  priority : Int
  mlfq_level : Nat
  deriving DecidableEq, Repr

/-! ## wakeup (kernel/proc.c:1288-1306)

`wakeup(chan)` iterates the process table; for every slot other than the
calling process it takes the PCB lock and, if the process is `SLEEPING`
on `chan`, sets its state to `RUNNABLE`.  The caller is identified by
its table index (`p != myproc()` is pointer identity into the table). -/

/-- The per-slot body of the `wakeup` loop. -/
def wakeupSlot (selfIdx chan : Nat) (i : Nat) (p : Pcb) : Pcb :=
  if i ≠ selfIdx ∧ p.state = Procstate.SLEEPING ∧ p.chan = chan then
    { p with state := Procstate.RUNNABLE }
  else p

/-- `wakeup` over the process table, starting at slot index `i`. -/
def wakeupFrom (selfIdx chan i : Nat) : List Pcb → List Pcb
  | [] => []
  | p :: ps => wakeupSlot selfIdx chan i p :: wakeupFrom selfIdx chan (i + 1) ps

/-- kernel/proc.c `wakeup`. -/
def wakeup (procTable : List Pcb) (selfIdx chan : Nat) : List Pcb :=
  wakeupFrom selfIdx chan 0 procTable

/-! ## Priority selector (kernel/scheduler_ext.c:117-140)

`priority_scheduler` scans the whole table keeping the best candidate:
a `RUNNABLE` process whose `priority` strictly exceeds the best seen so
far (`highest_priority` starts at `-1`).  The embedding returns the
table index of the selected slot. -/

/-- The scan loop of `priority_scheduler`: `i` is the index of the head
of `ps` in the table, `best`/`highest` the accumulator pair. -/
def prioGo : List Pcb → Nat → Option Nat → Int → Option Nat
  | [], _, best, _ => best
  | p :: rest, i, best, highest =>
    if p.state = Procstate.RUNNABLE ∧ p.priority > highest then
      prioGo rest (i + 1) (some i) p.priority
    else
      prioGo rest (i + 1) best highest

/-- kernel/scheduler_ext.c `priority_scheduler` (result as table index). -/
def priority_scheduler (procTable : List Pcb) : Option Nat :=
  prioGo procTable 0 none (-1)

/-! ## MLFQ queues (kernel/scheduler_ext.c)

`MAX_PRIORITY_LEVELS = 5` FIFO queues of process identifiers.  NPROC is
the capacity guard in `mlfq_add_process`. -/

def MAX_PRIORITY_LEVELS : Nat := 5
def NPROC : Nat := 64

/-- kernel/scheduler_ext.c `mlfq_add_process` (lines 282-297): appends
`p` at the tail of queue `level` when the level is in range and the
queue is not full. -/
def mlfq_add_process (queues : List (List Nat)) (p : Nat) (level : Nat) :
    List (List Nat) :=
  if level ≥ MAX_PRIORITY_LEVELS then queues
  else
    queues.mapIdx fun i q =>
      if i = level ∧ q.length < NPROC then q ++ [p] else q

/-! ## fork's scheduler interaction (kernel/proc.c `allocproc`, `kfork`)

`allocproc` (lines 283-293) initializes the scheduler-visible fields of
the newly claimed slot: `priority := 5` and `mlfq_level := 0` ("new
processes start at the highest-priority queue"); `kfork` (lines
608-621) then marks the child `RUNNABLE`, reads back `np->priority` and
`np->mlfq_level`, and — when the MLFQ selector is active — calls
`mlfq_add_process(np, child_level)`.  The parent's own fields are never
copied into `mlfq_level`. -/

/-- The field initialization `allocproc` applies to the claimed slot. -/
def allocprocInit (slot : Pcb) (newpid : Nat) : Pcb :=
  { slot with
    pid := newpid
    state := Procstate.USED
    priority := 5
    mlfq_level := 0 }

/-- The child PCB as `kfork` leaves it when enqueueing (state made
`RUNNABLE`; `sz`, trap frame, files, cwd and name are copied but none of
them feed the scheduler). -/
def kforkChild (slot : Pcb) (newpid : Nat) : Pcb :=
  { allocprocInit slot newpid with state := Procstate.RUNNABLE }

/-- The queue level `kfork` passes to `mlfq_add_process`
(`child_level = np->mlfq_level`). -/
def kforkEnqueueLevel (slot : Pcb) (newpid : Nat) : Nat :=
  (kforkChild slot newpid).mlfq_level

/-- Under the MLFQ selector, the queue state after `kfork` enqueues the
child with pid `newpid` allocated into `slot`. -/
def kforkMlfqQueues (queues : List (List Nat)) (slot : Pcb) (newpid : Nat) :
    List (List Nat) :=
  mlfq_add_process queues newpid (kforkEnqueueLevel slot newpid)

/-! ## Inode content state (kernel/fs.c `balloc`, `bmap`, `readi`)

The state a single inode's content operations touch: the inode's block
pointer array `addrs` (indices `0 .. NDIRECT+2`), its byte `size`, the
free-block pool, and the words stored in disk blocks (`disk b i` is the
`i`-th 32-bit word of block `b`, as indirect blocks are read —
`a = (uint*)bp->data; a[idx]`).  `freel` lists the block numbers the
bitmap scan of `balloc` would hand out, in order; block number 0 never
denotes a real block (`balloc` returns 0 for "out of blocks").  The
inode's access-time bookkeeping (`iupdatatime`, a bumped counter) is
carried as `atime`. -/

structure Fs where
  addrs : Nat → Nat
  size : Nat
  freel : List Nat
  disk : Nat → Nat → Nat
  atime : Nat

/-- kernel/fs.c `balloc` (lines 104-129): hand out the next free block,
zeroed (`bzero`), or 0 when the bitmap has no free bit.  The bitmap scan
order is abstracted into the order of `freel`. -/
def balloc (s : Fs) : Nat × Fs :=
  match s.freel with
  | [] => (0, s)
  | b :: rest =>
    (b, { s with
          freel := rest
          disk := fun b' i => if b' = b then 0 else s.disk b' i })

/-- The `bmap` idiom on a top-level slot of `ip->addrs`:
`if((addr = ip->addrs[slot]) == 0){ addr = balloc(dev); if(addr == 0)
return 0; ip->addrs[slot] = addr; }`. -/
def rootStep (s : Fs) (slot : Nat) : Nat × Fs :=
  if s.addrs slot ≠ 0 then (s.addrs slot, s)
  else
    let (addr, s1) := balloc s
    if addr = 0 then (0, s1)
    else (addr, { s1 with addrs := fun j => if j = slot then addr else s1.addrs j })

/-- The `bmap` idiom on entry `idx` of indirect block `blk`:
`bp = bread(dev, blk); a = (uint*)bp->data; if((addr = a[idx]) == 0){
addr = balloc(dev); if(addr){ a[idx] = addr; log_block_write(bp); } }`. -/
def indirectStep (s : Fs) (blk idx : Nat) : Nat × Fs :=
  if s.disk blk idx ≠ 0 then (s.disk blk idx, s)
  else
    let (addr, s1) := balloc s
    if addr = 0 then (0, s1)
    else (addr, { s1 with
                  disk := fun b i =>
                    if b = blk ∧ i = idx then addr else s1.disk b i })

/-- kernel/fs.c `bmap` (lines 565-698).  Returns the disk address of
logical block `bn` (0 on allocation failure) with the updated state;
`none` is the `panic("bmap: out of range")` path. -/
def bmap (s : Fs) (bn : Nat) : Option (Nat × Fs) :=
  if bn < NDIRECT then
    some (rootStep s bn)
  else
    let bn1 := bn - NDIRECT
    if bn1 < NINDIRECT then
      let r := rootStep s NDIRECT
      if r.1 = 0 then some (0, r.2)
      else some (indirectStep r.2 r.1 bn1)
    else
      let bn2 := bn1 - NINDIRECT
      if bn2 < NINDIRECT2 then
        let r := rootStep s (NDIRECT + 1)
        if r.1 = 0 then some (0, r.2)
        else
          let r2 := indirectStep r.2 r.1 (bn2 / NINDIRECT)
          if r2.1 = 0 then some (0, r2.2)
          else some (indirectStep r2.2 r2.1 (bn2 % NINDIRECT))
      else
        let bn3 := bn2 - NINDIRECT2
        if bn3 < NINDIRECT3 then
          let r := rootStep s (NDIRECT + 2)
          if r.1 = 0 then some (0, r.2)
          else
            let r2 := indirectStep r.2 r.1 (bn3 / NINDIRECT2)
            if r2.1 = 0 then some (0, r2.2)
            else
              let r3 := indirectStep r2.2 r2.1 ((bn3 % NINDIRECT2) / NINDIRECT)
              if r3.1 = 0 then some (0, r3.2)
              else some (indirectStep r3.2 r3.1 (bn3 % NINDIRECT))
        else none

/-- The transfer loop of kernel/fs.c `readi` (lines 845-857):
`for(tot=0; tot<n; tot+=m, off+=m, dst+=m){ addr = bmap(ip, off/BSIZE);
if(addr == 0) break; m = min(n - tot, BSIZE - off%BSIZE); ... }`.
`rem = n - tot` is the bytes still wanted.  The byte copy itself
(`bread` + `either_copyout`) moves data out of the state without
changing it; the embedding takes the kernel-destination path
(`user_dst = 0`), where `either_copyout` is `memmove` and cannot fail. -/
def readLoop (s : Fs) (off rem tot : Nat) : Option (Nat × Fs) :=
  if h : rem = 0 then some (tot, s)
  else
    match bmap s (off / BSIZE) with
    | none => none
    | some r =>
      if r.1 = 0 then some (tot, r.2)
      else
        let m := min rem (BSIZE - off % BSIZE)
        readLoop r.2 (off + m) (rem - m) (tot + m)
termination_by rem
decreasing_by
  have hb : 0 < BSIZE - off % BSIZE :=
    Nat.sub_pos_of_lt (Nat.mod_lt _ (by norm_num [BSIZE]))
  have hm : 0 < min rem (BSIZE - off % BSIZE) :=
    lt_min (Nat.pos_of_ne_zero h) hb
  omega

/-- kernel/fs.c `readi` (lines 834-865), kernel-destination path.
Returns the transferred byte count and the state after the read
(including the `iupdatatime` bump when `tot > 0`).  `off + n < off` is
the C `uint` overflow guard, checked modulo `2^32`. -/
def readi (s : Fs) (off n : Nat) : Option (Nat × Fs) :=
  if off > s.size ∨ (off + n) % 2 ^ 32 < off % 2 ^ 32 then some (0, s)
  else
    match readLoop s off (if off + n > s.size then s.size - off else n) 0 with
    | none => none
    | some r =>
      if r.1 > 0 then some (r.1, { r.2 with atime := r.2.atime + 1 })
      else some (r.1, r.2)

/-! ## Path element scanning (kernel/fs.c `skipelem`, lines 996-1019)

A path is the byte string handed to the kernel: a list of non-NUL
characters.  `skipelem` strips leading slashes, returns `none` when the
path is exhausted, and otherwise copies the next component into the
name buffer — the first `DIRSIZ` bytes without a terminating NUL when
the component has `DIRSIZ` or more bytes (`if(len >= DIRSIZ)
memmove(name, s, DIRSIZ)`), the whole component otherwise — and finally
strips the slashes before the remainder. -/

def skipelem (path : List Char) : Option (List Char × List Char) :=
  let p := path.dropWhile (· = '/')
  if p.isEmpty then none
  else
    let elem := p.takeWhile (· ≠ '/')
    let rest := p.dropWhile (· ≠ '/')
    let name := if elem.length ≥ DIRSIZ then elem.take DIRSIZ else elem
    some (name, rest.dropWhile (· = '/'))

/-- The raw (untruncated) components of a path, for stating claims about
truncation: same scan as `skipelem` but keeping the whole element. -/
def rawElem (path : List Char) : Option (List Char × List Char) :=
  let p := path.dropWhile (· = '/')
  if p.isEmpty then none
  else
    some (p.takeWhile (· ≠ '/'), (p.dropWhile (· ≠ '/')).dropWhile (· = '/'))

theorem dropWhile_length_le {α : Type} (p : α → Bool) :
    ∀ l : List α, (l.dropWhile p).length ≤ l.length
  | [] => le_refl _
  | a :: l => by
    by_cases h : p a
    · rw [List.dropWhile_cons_of_pos h]
      exact le_trans (dropWhile_length_le p l) (Nat.le_succ _)
    · rw [List.dropWhile_cons_of_neg h]

theorem dropWhile_head_not {α : Type} (p : α → Bool) :
    ∀ (l : List α) (c : α) (cs : List α), l.dropWhile p = c :: cs → p c = false
  | [], c, cs, h => by simp [List.dropWhile] at h
  | a :: l, c, cs, h => by
    by_cases ha : p a
    · rw [List.dropWhile_cons_of_pos ha] at h
      exact dropWhile_head_not p l c cs h
    · rw [List.dropWhile_cons_of_neg ha] at h
      obtain ⟨h1, h2⟩ := List.cons.inj h
      subst h1
      simpa using ha

theorem skipelem_rest_lt {path name rest : List Char}
    (h : skipelem path = some (name, rest)) : rest.length < path.length := by
  unfold skipelem at h
  cases hq : path.dropWhile (· = '/') with
  | nil => rw [hq] at h; simp at h
  | cons c cs =>
    rw [hq] at h
    have hplen : (c :: cs).length ≤ path.length := by
      rw [← hq]; exact dropWhile_length_le _ path
    have hc : ¬ ((fun x => decide (x = '/')) c = true) := by
      have := dropWhile_head_not (fun x => decide (x = '/')) path c cs hq
      simp only [this]
      exact Bool.false_ne_true
    simp only [List.isEmpty_cons, Bool.false_eq_true, if_false,
      Option.some.injEq, Prod.mk.injEq] at h
    have hd1 : (c :: cs).dropWhile (· ≠ '/') = cs.dropWhile (· ≠ '/') := by
      apply List.dropWhile_cons_of_pos
      simpa using hc
    have : rest.length ≤ (cs.dropWhile (· ≠ '/')).length := by
      rw [← h.2, hd1]; exact dropWhile_length_le _ _
    have hcs : (cs.dropWhile (· ≠ '/')).length ≤ cs.length :=
      dropWhile_length_le _ _
    simp only [List.length_cons] at hplen
    omega

theorem rawElem_rest_lt {path elem rest : List Char}
    (h : rawElem path = some (elem, rest)) : rest.length < path.length := by
  unfold rawElem at h
  cases hq : path.dropWhile (· = '/') with
  | nil => rw [hq] at h; simp at h
  | cons c cs =>
    rw [hq] at h
    have hplen : (c :: cs).length ≤ path.length := by
      rw [← hq]; exact dropWhile_length_le _ path
    have hc : ¬ ((fun x => decide (x = '/')) c = true) := by
      have := dropWhile_head_not (fun x => decide (x = '/')) path c cs hq
      simp only [this]
      exact Bool.false_ne_true
    simp only [List.isEmpty_cons, Bool.false_eq_true, if_false,
      Option.some.injEq, Prod.mk.injEq] at h
    have hd1 : (c :: cs).dropWhile (· ≠ '/') = cs.dropWhile (· ≠ '/') := by
      apply List.dropWhile_cons_of_pos
      simpa using hc
    have : rest.length ≤ (cs.dropWhile (· ≠ '/')).length := by
      rw [← h.2, hd1]; exact dropWhile_length_le _ _
    have hcs : (cs.dropWhile (· ≠ '/')).length ≤ cs.length :=
      dropWhile_length_le _ _
    simp only [List.length_cons] at hplen
    omega

/-- The sequence of (truncated) names `skipelem` produces for a path:
exactly the names the path walker looks up, in order. -/
def pathNames (path : List Char) : List (List Char) :=
  match h : skipelem path with
  | none => []
  | some (name, rest) => name :: pathNames rest
termination_by path.length
decreasing_by exact skipelem_rest_lt h

/-- The raw component sequence of a path. -/
def rawComponents (path : List Char) : List (List Char) :=
  match h : rawElem path with
  | none => []
  | some (elem, rest) => elem :: rawComponents rest
termination_by path.length
decreasing_by exact rawElem_rest_lt h

/-! ## Path resolution with symbolic links (kernel/fs.c `namex`, lines
1025-1115)

The file-system shape `namex` consults: the type of each inode, the
directory mapping (`dirlookup` as a function from a directory inode and
a looked-up name to the entry's inode), and for symlink inodes the
target string their data holds (as `readi` + NUL-termination yields it:
`symlink_target`).  Inodes are named by inode number; locking and
reference counting do not affect the resolution result and are elided. -/

structure SFs where
  typeOf : Nat → Int
  lookup : Nat → List Char → Option Nat
  target : Nat → List Char

def MAX_SYMLINK_DEPTH : Nat := 16

/-- The inner loop of `namex` (lines 1090-1103) that walks the symlink
target: plain component walk, no `nameiparent` stop and no symlink
check on the inodes it traverses. -/
def walkPlain (fs : SFs) (ip : Nat) (p : List Char) : Option Nat :=
  match h : skipelem p with
  | none => some ip
  | some (name, rest) =>
    if fs.typeOf ip ≠ T_DIR then none
    else
      match fs.lookup ip name with
      | none => none
      | some next => walkPlain fs next rest
termination_by p.length
decreasing_by exact skipelem_rest_lt h

/-- The main loop of `namex`: `depth` is `symlink_depth`.  On meeting a
symlink inode it checks the depth bound, reads the target, fails on a
relative target (line 1086), walks the absolute target with the inner
loop, and continues with the rest of the original path. -/
def namexLoop (fs : SFs) (parent : Bool) (depth ip : Nat) (path : List Char) :
    Option Nat :=
  match h : skipelem path with
  | none => if parent then none else some ip
  | some (name, rest) =>
    if fs.typeOf ip ≠ T_DIR then none
    else if parent ∧ rest.isEmpty then some ip
    else
      match fs.lookup ip name with
      | none => none
      | some next =>
        if fs.typeOf next = T_SYMLINK then
          if depth + 1 > MAX_SYMLINK_DEPTH then none
          else
            let tgt := fs.target next
            if tgt.isEmpty then none          -- readi(...) <= 0
            else if tgt.head? ≠ some '/' then none  -- relative: unsupported
            else
              match walkPlain fs ROOTINO tgt with
              | none => none
              | some ip2 => namexLoop fs parent (depth + 1) ip2 rest
        else namexLoop fs parent depth next rest
termination_by path.length
decreasing_by
  all_goals exact skipelem_rest_lt h

/-- kernel/fs.c `namex` for an absolute path (`namei` when
`parent = false`, `nameiparent` when `parent = true`); empty paths fail
(lines 1033-1035), and a path not beginning with `/` would start from
the current working directory instead of the root. -/
def namex (fs : SFs) (path : List Char) (parent : Bool) (cwd : Nat) :
    Option Nat :=
  if path.isEmpty then none
  else if path.head? = some '/' then namexLoop fs parent 0 ROOTINO path
  else namexLoop fs parent 0 cwd path

/-- kernel/fs.c `namei`. -/
def namei (fs : SFs) (path : List Char) (cwd : Nat) : Option Nat :=
  namex fs path false cwd

/-! # Theorems -/

/-! ## C9 — on-disk inode packing -/

/-- C9, counterexample.  The dinode record is indeed 128 bytes, but
`IPB = BSIZE / sizeof(struct dinode) = 4096 / 128 = 32`: thirty-two
dinodes fit per block, not sixteen, so the claim's `IPB = 16` is false
(the comment in kernel/fs.h:82 itself says `4096/32 = 128`). -/
theorem c9_not_sixteen_per_block : dinodeSize = 128 ∧ IPB ≠ 16 := by
  constructor
  · rfl
  · decide

/-- C9, amended: the dinode record, including its explicit padding, is
exactly 128 bytes, and exactly thirty-two dinodes fit per 4096-byte
disk block (`IPB = 32`, with no space wasted: `32 * 128 = 4096`). -/
theorem c9_dinode_packing :
    dinodeSize = 128 ∧ IPB = 32 ∧ IPB * dinodeSize = BSIZE := by
  refine ⟨rfl, rfl, rfl⟩

/-! ## C1 — errno persistence across system calls -/

/-- C1, divergence witness.  After a failed `open("/nonexistent")`
(handler result `-ENOENT`, so the dispatcher stores magnitude 2 and
returns `-1`), the first `geterrno` system call returns 2 — but being a
successful call its own dispatch epilogue clears the last-error field,
so the second `geterrno` returns 0, not the same value.  A following
successful `getpid` (pid 3 here) does leave `errno = 0`. -/
theorem c1_errno_not_persistent_across_geterrno :
    (dispatch { errno := 0, pid := 3 } (-ENOENT)).2 = -1 ∧
    (doGeterrno (dispatch { errno := 0, pid := 3 } (-ENOENT)).1).2 = ENOENT ∧
    (doGeterrno (doGeterrno
      (dispatch { errno := 0, pid := 3 } (-ENOENT)).1).1).2 = 0 ∧
    ENOENT ≠ (0 : Int) ∧
    (doGetpid (doGeterrno (doGeterrno
      (dispatch { errno := 0, pid := 3 } (-ENOENT)).1).1).1).1.errno = 0 ∧
    (doGetpid (doGeterrno (doGeterrno
      (dispatch { errno := 0, pid := 3 } (-ENOENT)).1).1).1).2 = 3 := by
  decide

/-! ## C2 — inode allocation type validation -/

/-- C2, divergence witness.  `ialloc` validates the requested type with
`type != T_FILE && type != T_DIR && type != T_DEVICE` (kernel/fs.c:283),
so `T_SYMLINK` — a documented member of the dinode type set, and the
type `sys_symlink` passes (kernel/sysfile.c:369) — is rejected with the
invalid-type error `-EINVAL` even on a disk full of free inodes, and no
symlink inode is ever produced; a file allocation on the same disk
succeeds. -/
theorem c2_ialloc_rejects_symlink_type :
    ialloc [0, 0, 0, 0] T_SYMLINK = .error (-EINVAL) ∧
    ialloc [0, 0, 0, 0] T_FILE = .ok (1, [0, T_FILE, 0, 0]) := by
  constructor <;> rfl

/-! ## C6 — fork's MLFQ enqueue level -/

/-- C6, counterexample.  A parent running at MLFQ level 2 forks: the
child's level is initialized to 0 by `allocproc` (kernel/proc.c:291) and
`kfork` enqueues at `np->mlfq_level` (kernel/proc.c:612,620), so the
child is enqueued at level 0, not at its parent's level 2: starting
from empty queues, queue 0 holds the child and queue 2 stays empty. -/
theorem c6_fork_enqueue_counterexample :
    let parent : Pcb :=
      { state := Procstate.RUNNING, chan := 0, pid := 7,
        priority := 5, mlfq_level := 2 }
    let slot : Pcb :=
      { state := Procstate.UNUSED, chan := 0, pid := 0,
        priority := 0, mlfq_level := 0 }
    kforkEnqueueLevel slot 8 ≠ parent.mlfq_level ∧
    kforkMlfqQueues [[], [], [], [], []] slot 8 = [[8], [], [], [], []] := by
  constructor
  · decide
  · rfl

/-- C6, amended: under the MLFQ selector, fork enqueues the newly
created, runnable child on MLFQ queue 0 (the highest level), regardless
of the parent's level — the enqueue level equals the parent's only when
the parent is itself at level 0. -/
theorem c6_fork_enqueues_level_zero (slot : Pcb) (newpid : Nat)
    (queues : List (List Nat)) :
    kforkEnqueueLevel slot newpid = 0 ∧
    (kforkChild slot newpid).state = Procstate.RUNNABLE ∧
    kforkMlfqQueues queues slot newpid = mlfq_add_process queues newpid 0 := by
  exact ⟨rfl, rfl, rfl⟩

/-! ## C8 — wakeup semantics -/

theorem wakeupFrom_length :
    ∀ (t : List Pcb) (selfIdx chan i0 : Nat),
      (wakeupFrom selfIdx chan i0 t).length = t.length
  | [], _, _, _ => rfl
  | p :: ps, s, c, i0 => by
    simp [wakeupFrom, wakeupFrom_length ps s c (i0 + 1)]

theorem wakeupFrom_get :
    ∀ (t : List Pcb) (selfIdx chan i0 i : Nat),
      (wakeupFrom selfIdx chan i0 t).get? i =
        (t.get? i).map (fun p => wakeupSlot selfIdx chan (i0 + i) p)
  | [], _, _, _, _ => by simp [wakeupFrom]
  | p :: ps, selfIdx, chan, i0, 0 => by simp [wakeupFrom]
  | p :: ps, selfIdx, chan, i0, (i + 1) => by
    have := wakeupFrom_get ps selfIdx chan (i0 + 1) i
    simpa [wakeupFrom, Nat.add_assoc, Nat.add_comm 1 i] using this

/-- C8: `wakeup(chan)` leaves the table length unchanged and rewrites
each slot pointwise: a slot other than the caller's that is `SLEEPING`
on `chan` becomes `RUNNABLE` with every other field intact; every other
slot — the caller, processes in other states, and sleepers on other
channels — is left exactly unchanged. -/
theorem c8_wakeup_exact (t : List Pcb) (selfIdx chan : Nat) :
    (wakeup t selfIdx chan).length = t.length ∧
    ∀ i pi, t.get? i = some pi →
      (wakeup t selfIdx chan).get? i =
        some (if i ≠ selfIdx ∧ pi.state = Procstate.SLEEPING ∧ pi.chan = chan
              then { pi with state := Procstate.RUNNABLE }
              else pi) := by
  constructor
  · show (wakeupFrom selfIdx chan 0 t).length = t.length
    exact wakeupFrom_length t selfIdx chan 0
  · intro i pi hi
    have := wakeupFrom_get t selfIdx chan 0 i
    rw [wakeup, this, hi]
    simp [wakeupSlot]

/-- C8 witness: a four-slot table — caller sleeping on the channel
(slot 0, skipped and unchanged), a sleeper on the channel (slot 1,
woken), a sleeper on another channel (slot 2, untouched), a runnable
process (slot 3, untouched). -/
theorem c8_wakeup_exact_witness :
    let t : List Pcb :=
      [{ state := Procstate.SLEEPING, chan := 9, pid := 1, priority := 5, mlfq_level := 0 },
       { state := Procstate.SLEEPING, chan := 9, pid := 2, priority := 5, mlfq_level := 0 },
       { state := Procstate.SLEEPING, chan := 4, pid := 3, priority := 5, mlfq_level := 0 },
       { state := Procstate.RUNNABLE, chan := 0, pid := 4, priority := 5, mlfq_level := 0 }]
    (wakeup t 0 9).get? 0 =
      some { state := Procstate.SLEEPING, chan := 9, pid := 1, priority := 5, mlfq_level := 0 } ∧
    (wakeup t 0 9).get? 1 =
      some { state := Procstate.RUNNABLE, chan := 9, pid := 2, priority := 5, mlfq_level := 0 } ∧
    (wakeup t 0 9).get? 2 =
      some { state := Procstate.SLEEPING, chan := 4, pid := 3, priority := 5, mlfq_level := 0 } ∧
    (wakeup t 0 9).get? 3 =
      some { state := Procstate.RUNNABLE, chan := 0, pid := 4, priority := 5, mlfq_level := 0 } ∧
    (wakeup t 0 9).length = 4 := by
  intro t
  have h := c8_wakeup_exact t 0 9
  have h0 := h.2 0 _ rfl
  have h1 := h.2 1 _ rfl
  have h2 := h.2 2 _ rfl
  have h3 := h.2 3 _ rfl
  refine ⟨?_, ?_, ?_, ?_, h.1⟩
  · simpa using h0
  · simpa using h1
  · simpa using h2
  · simpa using h3

/-! ## C7 — priority selector correctness -/

/-- Selection relative to a current `highest_priority` bound: the index
(relative to the front of `ps`) and priority the remaining scan settles
on, if any.  `prioGo` is proved equal to it below. -/
def bestIdx : List Pcb → Int → Option (Nat × Int)
  | [], _ => none
  | p :: rest, highest =>
    if p.state = Procstate.RUNNABLE ∧ p.priority > highest then
      match bestIdx rest p.priority with
      | none => some (0, p.priority)
      | some (k, pr) => some (k + 1, pr)
    else
      (bestIdx rest highest).map fun kp => (kp.1 + 1, kp.2)

theorem prioGo_eq_bestIdx :
    ∀ (ps : List Pcb) (i : Nat) (best : Option Nat) (highest : Int),
      prioGo ps i best highest =
        match bestIdx ps highest with
        | none => best
        | some (k, _) => some (i + k)
  | [], i, best, highest => rfl
  | p :: rest, i, best, highest => by
    by_cases h : p.state = Procstate.RUNNABLE ∧ p.priority > highest
    · rw [prioGo, if_pos h, bestIdx, if_pos h,
        prioGo_eq_bestIdx rest (i + 1) (some i) p.priority]
      cases hb : bestIdx rest p.priority with
      | none => simp
      | some kp => cases kp with | mk k pr => simp; omega
    · rw [prioGo, if_neg h, bestIdx, if_neg h,
        prioGo_eq_bestIdx rest (i + 1) best highest]
      cases hb : bestIdx rest highest with
      | none => simp
      | some kp => cases kp with | mk k pr => simp; omega

theorem bestIdx_none_iff (ps : List Pcb) (highest : Int) :
    bestIdx ps highest = none ↔
      ∀ p ∈ ps, ¬(p.state = Procstate.RUNNABLE ∧ p.priority > highest) := by
  induction ps generalizing highest with
  | nil => simp [bestIdx]
  | cons p rest ih =>
    by_cases h : p.state = Procstate.RUNNABLE ∧ p.priority > highest
    · rw [bestIdx, if_pos h]
      constructor
      · intro hc
        cases hb : bestIdx rest p.priority with
        | none => rw [hb] at hc; exact Option.noConfusion hc
        | some kp =>
          rw [hb] at hc
          cases kp
          exact Option.noConfusion hc
      · intro hall
        exact absurd h (hall p (List.mem_cons_self p rest))
    · rw [bestIdx, if_neg h]
      cases hb : bestIdx rest highest with
      | none =>
        constructor
        · intro _ q hq
          rcases List.mem_cons.mp hq with rfl | hq
          · exact h
          · exact ((ih highest).mp hb) q hq
        · intro _
          rfl
      | some kp =>
        constructor
        · intro hc
          cases kp
          exact Option.noConfusion hc
        · intro hall
          exfalso
          have hnone := (ih highest).mpr
            (fun q hq => hall q (List.mem_cons_of_mem p hq))
          rw [hnone] at hb
          exact Option.noConfusion hb

/-- What a successful `bestIdx` scan delivers: a runnable slot whose
priority exceeds the incoming bound, is at least the priority of every
runnable slot in the list, and strictly exceeds that of every earlier
runnable slot (the tie-break). -/
theorem bestIdx_some_spec :
    ∀ (ps : List Pcb) (highest : Int) (k : Nat) (pr : Int),
      bestIdx ps highest = some (k, pr) →
      ∃ pk, ps.get? k = some pk ∧ pk.state = Procstate.RUNNABLE ∧
        pk.priority = pr ∧ pr > highest ∧
        (∀ j pj, ps.get? j = some pj → pj.state = Procstate.RUNNABLE →
          pj.priority ≤ pr) ∧
        (∀ j pj, j < k → ps.get? j = some pj →
          pj.state = Procstate.RUNNABLE → pj.priority < pr)
  | [], highest, k, pr, h => by simp [bestIdx] at h
  | p :: rest, highest, k, pr, h => by
    by_cases hp : p.state = Procstate.RUNNABLE ∧ p.priority > highest
    · rw [bestIdx, if_pos hp] at h
      cases hb : bestIdx rest p.priority with
      | none =>
        rw [hb] at h
        obtain ⟨hk, hpr⟩ := by
          simpa using h
        subst hk
        refine ⟨p, by simp, hp.1, hpr, by omega, ?_, ?_⟩
        · intro j pj hj hrun
          match j with
          | 0 =>
            simp at hj; subst hj; omega
          | j + 1 =>
            simp only [List.get?_cons_succ] at hj
            by_contra hgt
            push_neg at hgt
            have := (bestIdx_none_iff rest p.priority).mp hb pj
              (List.get?_mem hj)
            rw [← hpr] at hgt
            exact this ⟨hrun, hgt⟩
        · intro j pj hj _ _; omega
      | some kp =>
        cases kp with
        | mk k' pr' =>
          rw [hb] at h
          obtain ⟨hk, hpr⟩ := by simpa using h
          subst hk
          obtain ⟨pk, hget, hrun, hprio, hgt, hmax, htie⟩ :=
            bestIdx_some_spec rest p.priority k' pr' hb
          refine ⟨pk, by simpa using hget, hrun, by rw [hpr] at hprio; exact hprio,
            by omega, ?_, ?_⟩
          · intro j pj hj hrunj
            match j with
            | 0 =>
              simp at hj; subst hj; omega
            | j + 1 =>
              simp only [List.get?_cons_succ] at hj
              have := hmax j pj hj hrunj
              omega
          · intro j pj hjk hj hrunj
            match j with
            | 0 =>
              simp at hj; subst hj; omega
            | j + 1 =>
              simp only [List.get?_cons_succ] at hj
              have := htie j pj (by omega) hj hrunj
              omega
    · rw [bestIdx, if_neg hp] at h
      cases hb : bestIdx rest highest with
      | none => rw [hb] at h; simp at h
      | some kp =>
        cases kp with
        | mk k' pr' =>
          rw [hb] at h
          obtain ⟨hk, hpr⟩ := by simpa using h
          subst hk
          obtain ⟨pk, hget, hrun, hprio, hgt, hmax, htie⟩ :=
            bestIdx_some_spec rest highest k' pr' hb
          subst hpr
          refine ⟨pk, by simpa using hget, hrun, hprio, hgt, ?_, ?_⟩
          · intro j pj hj hrunj
            match j with
            | 0 =>
              simp at hj; subst hj
              rw [Decidable.not_and_iff_or_not] at hp
              rcases hp with hp | hp
              · exact absurd hrunj hp
              · omega
            | j + 1 =>
              simp only [List.get?_cons_succ] at hj
              exact hmax j pj hj hrunj
          · intro j pj hjk hj hrunj
            match j with
            | 0 =>
              simp at hj; subst hj
              rw [Decidable.not_and_iff_or_not] at hp
              rcases hp with hp | hp
              · exact absurd hrunj hp
              · omega
            | j + 1 =>
              simp only [List.get?_cons_succ] at hj
              exact htie j pj (by omega) hj hrunj

/-- C7: on a table whose priorities are in the documented 0–9 range
(only non-negativity is needed), `priority_scheduler` returns `none`
exactly when no process is runnable, and otherwise returns the index of
a runnable process whose priority is maximal among all runnable
processes, every earlier runnable slot having strictly smaller priority
(ties broken by table order) — hence a higher-priority runnable process
is always selected before a lower-priority one. -/
theorem c7_priority_scheduler_correct (ps : List Pcb)
    (hpos : ∀ p ∈ ps, 0 ≤ p.priority) :
    (priority_scheduler ps = none ↔
      ∀ p ∈ ps, p.state ≠ Procstate.RUNNABLE) ∧
    (∀ i, priority_scheduler ps = some i →
      ∃ pi, ps.get? i = some pi ∧ pi.state = Procstate.RUNNABLE ∧
        (∀ j pj, ps.get? j = some pj → pj.state = Procstate.RUNNABLE →
          pj.priority ≤ pi.priority) ∧
        (∀ j pj, j < i → ps.get? j = some pj →
          pj.state = Procstate.RUNNABLE → pj.priority < pi.priority)) := by
  have heq := prioGo_eq_bestIdx ps 0 none (-1)
  constructor
  · rw [priority_scheduler, heq]
    cases hb : bestIdx ps (-1) with
    | none =>
      constructor
      · intro _ p hp hrun
        have := (bestIdx_none_iff ps (-1)).mp hb p hp
        have hge := hpos p hp
        exact this ⟨hrun, by omega⟩
      · intro _
        rfl
    | some kp =>
      cases kp with
      | mk k pr =>
        constructor
        · intro hc
          exact Option.noConfusion hc
        · intro hall
          obtain ⟨pk, hget, hrun, _⟩ := bestIdx_some_spec ps (-1) k pr hb
          exact absurd hrun (hall pk (List.get?_mem hget))
  · intro i hi
    rw [priority_scheduler, heq] at hi
    cases hb : bestIdx ps (-1) with
    | none => rw [hb] at hi; exact Option.noConfusion hi
    | some kp =>
      cases kp with
      | mk k pr =>
        rw [hb] at hi
        have hik : k = i := by simpa using hi
        subst hik
        obtain ⟨pk, hget, hrun, hprio, _, hmax, htie⟩ :=
          bestIdx_some_spec ps (-1) k pr hb
        exact ⟨pk, hget, hrun,
          fun j pj hj hr => by have := hmax j pj hj hr; omega,
          fun j pj hjk hj hr => by have := htie j pj hjk hj hr; omega⟩

/-- C7 witness: table `[runnable prio 3, sleeping prio 9, runnable
prio 7, runnable prio 7]` — the selector picks index 2: runnable,
maximal among runnables, and ahead of the equal-priority slot 3. -/
theorem c7_priority_scheduler_correct_witness :
    let ps : List Pcb :=
      [{ state := Procstate.RUNNABLE, chan := 0, pid := 1, priority := 3, mlfq_level := 0 },
       { state := Procstate.SLEEPING, chan := 5, pid := 2, priority := 9, mlfq_level := 0 },
       { state := Procstate.RUNNABLE, chan := 0, pid := 3, priority := 7, mlfq_level := 0 },
       { state := Procstate.RUNNABLE, chan := 0, pid := 4, priority := 7, mlfq_level := 0 }]
    priority_scheduler ps = some 2 ∧
    ∃ pi, ps.get? 2 = some pi ∧ pi.state = Procstate.RUNNABLE ∧
      (∀ j pj, ps.get? j = some pj → pj.state = Procstate.RUNNABLE →
        pj.priority ≤ pi.priority) := by
  intro ps
  have hsel : priority_scheduler ps = some 2 := by decide
  have h := (c7_priority_scheduler_correct ps (by decide)).2 2 hsel
  obtain ⟨pi, hget, hrun, hmax, _⟩ := h
  exact ⟨hsel, pi, hget, hrun, hmax⟩

/-! ## C4 — multi-level block mapping thresholds -/

theorem balloc_empty {s : Fs} (h : s.freel = []) : balloc s = (0, s) := by
  simp [balloc, h]

theorem rootStep_present {s : Fs} {slot : Nat} (h : s.addrs slot ≠ 0) :
    rootStep s slot = (s.addrs slot, s) := by
  simp [rootStep, h]

theorem indirectStep_present {s : Fs} {blk idx : Nat} (h : s.disk blk idx ≠ 0) :
    indirectStep s blk idx = (s.disk blk idx, s) := by
  simp [indirectStep, h]

theorem rootStep_empty {s : Fs} (slot : Nat) (h : s.freel = []) :
    rootStep s slot = (s.addrs slot, s) := by
  by_cases h0 : s.addrs slot = 0
  · simp [rootStep, h0, balloc_empty h]
  · simp [rootStep, h0]

theorem indirectStep_empty {s : Fs} (blk idx : Nat) (h : s.freel = []) :
    indirectStep s blk idx = (s.disk blk idx, s) := by
  by_cases h0 : s.disk blk idx = 0
  · simp [indirectStep, h0, balloc_empty h]
  · simp [indirectStep, h0]

theorem bmap_direct {s : Fs} {bn : Nat} (hb : bn < NDIRECT) :
    bmap s bn = some (rootStep s bn) := by
  simp [bmap, hb]

theorem bmap_single_present {s : Fs} {bn : Nat}
    (h1 : NDIRECT ≤ bn) (h2 : bn < NDIRECT + NINDIRECT)
    (ha : s.addrs NDIRECT ≠ 0)
    (hd : s.disk (s.addrs NDIRECT) (bn - NDIRECT) ≠ 0) :
    bmap s bn = some (s.disk (s.addrs NDIRECT) (bn - NDIRECT), s) := by
  simp only [bmap]
  rw [if_neg (by omega : ¬ bn < NDIRECT),
    if_pos (by omega : bn - NDIRECT < NINDIRECT),
    rootStep_present ha]
  simp only [if_neg ha]
  rw [indirectStep_present hd]

theorem bmap_double_present {s : Fs} {bn : Nat}
    (h1 : NDIRECT + NINDIRECT ≤ bn)
    (h2 : bn < NDIRECT + NINDIRECT + NINDIRECT2)
    (ha : s.addrs (NDIRECT + 1) ≠ 0)
    (hmid : s.disk (s.addrs (NDIRECT + 1))
      ((bn - NDIRECT - NINDIRECT) / NINDIRECT) ≠ 0)
    (hleaf : s.disk
      (s.disk (s.addrs (NDIRECT + 1)) ((bn - NDIRECT - NINDIRECT) / NINDIRECT))
      ((bn - NDIRECT - NINDIRECT) % NINDIRECT) ≠ 0) :
    bmap s bn = some (s.disk
      (s.disk (s.addrs (NDIRECT + 1)) ((bn - NDIRECT - NINDIRECT) / NINDIRECT))
      ((bn - NDIRECT - NINDIRECT) % NINDIRECT), s) := by
  simp only [bmap]
  rw [if_neg (by omega : ¬ bn < NDIRECT),
    if_neg (by omega : ¬ bn - NDIRECT < NINDIRECT),
    if_pos (by omega : bn - NDIRECT - NINDIRECT < NINDIRECT2),
    rootStep_present ha]
  simp only [if_neg ha]
  rw [indirectStep_present hmid]
  simp only [if_neg hmid]
  rw [indirectStep_present hleaf]

theorem bmap_triple_present {s : Fs} {bn : Nat}
    (h1 : NDIRECT + NINDIRECT + NINDIRECT2 ≤ bn)
    (h2 : bn < NDIRECT + NINDIRECT + NINDIRECT2 + NINDIRECT3)
    (ha : s.addrs (NDIRECT + 2) ≠ 0)
    (htop : s.disk (s.addrs (NDIRECT + 2))
      ((bn - NDIRECT - NINDIRECT - NINDIRECT2) / NINDIRECT2) ≠ 0)
    (hmid : s.disk
      (s.disk (s.addrs (NDIRECT + 2))
        ((bn - NDIRECT - NINDIRECT - NINDIRECT2) / NINDIRECT2))
      (((bn - NDIRECT - NINDIRECT - NINDIRECT2) % NINDIRECT2) / NINDIRECT) ≠ 0)
    (hleaf : s.disk
      (s.disk
        (s.disk (s.addrs (NDIRECT + 2))
          ((bn - NDIRECT - NINDIRECT - NINDIRECT2) / NINDIRECT2))
        (((bn - NDIRECT - NINDIRECT - NINDIRECT2) % NINDIRECT2) / NINDIRECT))
      ((bn - NDIRECT - NINDIRECT - NINDIRECT2) % NINDIRECT) ≠ 0) :
    bmap s bn = some (s.disk
      (s.disk
        (s.disk (s.addrs (NDIRECT + 2))
          ((bn - NDIRECT - NINDIRECT - NINDIRECT2) / NINDIRECT2))
        (((bn - NDIRECT - NINDIRECT - NINDIRECT2) % NINDIRECT2) / NINDIRECT))
      ((bn - NDIRECT - NINDIRECT - NINDIRECT2) % NINDIRECT), s) := by
  simp only [bmap]
  rw [if_neg (by omega : ¬ bn < NDIRECT),
    if_neg (by omega : ¬ bn - NDIRECT < NINDIRECT),
    if_neg (by omega : ¬ bn - NDIRECT - NINDIRECT < NINDIRECT2),
    if_pos (by omega : bn - NDIRECT - NINDIRECT - NINDIRECT2 < NINDIRECT3),
    rootStep_present ha]
  simp only [if_neg ha]
  rw [indirectStep_present htop]
  simp only [if_neg htop]
  rw [indirectStep_present hmid]
  simp only [if_neg hmid]
  rw [indirectStep_present hleaf]

theorem MAXFILE_def :
    MAXFILE = NDIRECT + NINDIRECT + NINDIRECT2 + NINDIRECT3 := rfl

theorem bmap_out_of_range {s : Fs} {bn : Nat} (h : MAXFILE ≤ bn) :
    bmap s bn = none := by
  have hM := MAXFILE_def
  simp only [bmap]
  rw [if_neg (by omega : ¬ bn < NDIRECT),
    if_neg (by omega : ¬ bn - NDIRECT < NINDIRECT),
    if_neg (by omega : ¬ bn - NDIRECT - NINDIRECT < NINDIRECT2),
    if_neg (by omega : ¬ bn - NDIRECT - NINDIRECT - NINDIRECT2 < NINDIRECT3)]

theorem bmap_in_range_isSome {s : Fs} {bn : Nat} (h : bn < MAXFILE) :
    bmap s bn ≠ none := by
  have hM := MAXFILE_def
  simp only [bmap]
  by_cases h0 : bn < NDIRECT
  · rw [if_pos h0]; exact Option.noConfusion
  rw [if_neg h0]
  by_cases hx1 : bn - NDIRECT < NINDIRECT
  · rw [if_pos hx1]
    split_ifs <;> exact Option.noConfusion
  rw [if_neg hx1]
  by_cases hx2 : bn - NDIRECT - NINDIRECT < NINDIRECT2
  · rw [if_pos hx2]
    split_ifs <;> exact Option.noConfusion
  rw [if_neg hx2]
  rw [if_pos (by omega : bn - NDIRECT - NINDIRECT - NINDIRECT2 < NINDIRECT3)]
  split_ifs <;> exact Option.noConfusion

theorem bmap_none_iff (s : Fs) (bn : Nat) :
    bmap s bn = none ↔ MAXFILE ≤ bn := by
  constructor
  · intro h
    by_contra hc
    exact bmap_in_range_isSome (by omega) h
  · exact bmap_out_of_range

/-- With an exhausted free list every `bmap` step degenerates to a pure
lookup: in range, `bmap` returns some address (possibly 0) with the
state untouched. -/
theorem bmap_empty_freel {s : Fs} {bn : Nat} (hf : s.freel = [])
    (hbn : bn < MAXFILE) : ∃ a, bmap s bn = some (a, s) := by
  have hM := MAXFILE_def
  simp only [bmap]
  by_cases h0 : bn < NDIRECT
  · rw [if_pos h0, rootStep_empty bn hf]
    exact ⟨s.addrs bn, rfl⟩
  rw [if_neg h0]
  by_cases hx1 : bn - NDIRECT < NINDIRECT
  · rw [if_pos hx1, rootStep_empty NDIRECT hf]
    dsimp only
    by_cases hz : s.addrs NDIRECT = 0
    · rw [if_pos hz]; exact ⟨0, rfl⟩
    · rw [if_neg hz, indirectStep_empty _ _ hf]
      exact ⟨s.disk (s.addrs NDIRECT) (bn - NDIRECT), rfl⟩
  rw [if_neg hx1]
  by_cases hx2 : bn - NDIRECT - NINDIRECT < NINDIRECT2
  · rw [if_pos hx2, rootStep_empty (NDIRECT + 1) hf]
    dsimp only
    by_cases hz : s.addrs (NDIRECT + 1) = 0
    · rw [if_pos hz]; exact ⟨0, rfl⟩
    · rw [if_neg hz, indirectStep_empty _ _ hf]
      dsimp only
      by_cases hz2 : s.disk (s.addrs (NDIRECT + 1))
          ((bn - NDIRECT - NINDIRECT) / NINDIRECT) = 0
      · rw [if_pos hz2]; exact ⟨0, rfl⟩
      · rw [if_neg hz2, indirectStep_empty _ _ hf]
        exact ⟨_, rfl⟩
  rw [if_neg hx2,
    if_pos (by omega : bn - NDIRECT - NINDIRECT - NINDIRECT2 < NINDIRECT3),
    rootStep_empty (NDIRECT + 2) hf]
  dsimp only
  by_cases hz : s.addrs (NDIRECT + 2) = 0
  · rw [if_pos hz]; exact ⟨0, rfl⟩
  · rw [if_neg hz, indirectStep_empty _ _ hf]
    dsimp only
    by_cases hz2 : s.disk (s.addrs (NDIRECT + 2))
        ((bn - NDIRECT - NINDIRECT - NINDIRECT2) / NINDIRECT2) = 0
    · rw [if_pos hz2]; exact ⟨0, rfl⟩
    · rw [if_neg hz2, indirectStep_empty _ _ hf]
      dsimp only
      by_cases hz3 : s.disk (s.disk (s.addrs (NDIRECT + 2))
          ((bn - NDIRECT - NINDIRECT - NINDIRECT2) / NINDIRECT2))
          (((bn - NDIRECT - NINDIRECT - NINDIRECT2) % NINDIRECT2) / NINDIRECT) = 0
      · rw [if_pos hz3]; exact ⟨0, rfl⟩
      · rw [if_neg hz3, indirectStep_empty _ _ hf]
        exact ⟨_, rfl⟩

/-- C4: with `N = NINDIRECT = BSIZE/4 = 1024`, the block mapper locates
logical block `b` in direct slot `b` when `b < 10`; through the single
indirect block `addrs[10]` at entry `b - 10` when `b < 10 + N`; through
the double indirect tree `addrs[11]` at entries `r / N` and `r % N`
(`r = b - 10 - N`) when `b < 10 + N + N²`; through the triple indirect
tree `addrs[12]` at entries `r / N²`, `(r % N²) / N` and `r % N`
(`r = b - 10 - N - N²`) otherwise, up to the capacity
`MAXFILE = 10 + N + N² + N³`, beyond which it panics (`none`).  The
located block is returned unchanged whenever the chain is already
allocated (the stated non-zero conditions). -/
theorem c4_bmap_thresholds (s : Fs) (b : Nat) :
    (NDIRECT = 10 ∧ NINDIRECT = 1024 ∧
      MAXFILE = NDIRECT + NINDIRECT + NINDIRECT2 + NINDIRECT3) ∧
    (b < NDIRECT → s.addrs b ≠ 0 → bmap s b = some (s.addrs b, s)) ∧
    (NDIRECT ≤ b → b < NDIRECT + NINDIRECT →
      s.addrs NDIRECT ≠ 0 →
      s.disk (s.addrs NDIRECT) (b - NDIRECT) ≠ 0 →
      bmap s b = some (s.disk (s.addrs NDIRECT) (b - NDIRECT), s)) ∧
    (NDIRECT + NINDIRECT ≤ b → b < NDIRECT + NINDIRECT + NINDIRECT2 →
      s.addrs (NDIRECT + 1) ≠ 0 →
      s.disk (s.addrs (NDIRECT + 1))
        ((b - NDIRECT - NINDIRECT) / NINDIRECT) ≠ 0 →
      s.disk (s.disk (s.addrs (NDIRECT + 1))
          ((b - NDIRECT - NINDIRECT) / NINDIRECT))
        ((b - NDIRECT - NINDIRECT) % NINDIRECT) ≠ 0 →
      bmap s b = some (s.disk
        (s.disk (s.addrs (NDIRECT + 1)) ((b - NDIRECT - NINDIRECT) / NINDIRECT))
        ((b - NDIRECT - NINDIRECT) % NINDIRECT), s)) ∧
    (NDIRECT + NINDIRECT + NINDIRECT2 ≤ b →
      b < NDIRECT + NINDIRECT + NINDIRECT2 + NINDIRECT3 →
      s.addrs (NDIRECT + 2) ≠ 0 →
      s.disk (s.addrs (NDIRECT + 2))
        ((b - NDIRECT - NINDIRECT - NINDIRECT2) / NINDIRECT2) ≠ 0 →
      s.disk (s.disk (s.addrs (NDIRECT + 2))
          ((b - NDIRECT - NINDIRECT - NINDIRECT2) / NINDIRECT2))
        (((b - NDIRECT - NINDIRECT - NINDIRECT2) % NINDIRECT2) / NINDIRECT) ≠ 0 →
      s.disk (s.disk (s.disk (s.addrs (NDIRECT + 2))
            ((b - NDIRECT - NINDIRECT - NINDIRECT2) / NINDIRECT2))
          (((b - NDIRECT - NINDIRECT - NINDIRECT2) % NINDIRECT2) / NINDIRECT))
        ((b - NDIRECT - NINDIRECT - NINDIRECT2) % NINDIRECT) ≠ 0 →
      bmap s b = some (s.disk
        (s.disk (s.disk (s.addrs (NDIRECT + 2))
            ((b - NDIRECT - NINDIRECT - NINDIRECT2) / NINDIRECT2))
          (((b - NDIRECT - NINDIRECT - NINDIRECT2) % NINDIRECT2) / NINDIRECT))
        ((b - NDIRECT - NINDIRECT - NINDIRECT2) % NINDIRECT), s)) ∧
    (bmap s b = none ↔ MAXFILE ≤ b) := by
  refine ⟨⟨rfl, rfl, rfl⟩, ?_, ?_, ?_, ?_, bmap_none_iff s b⟩
  · intro hb h0
    rw [bmap_direct hb, rootStep_present h0]
  · intro h1 h2 ha hd
    exact bmap_single_present h1 h2 ha hd
  · intro h1 h2 ha hmid hleaf
    exact bmap_double_present h1 h2 ha hmid hleaf
  · intro h1 h2 ha htop hmid hleaf
    exact bmap_triple_present h1 h2 ha htop hmid hleaf

/-- A concrete inode state exercising the triple-indirect region:
`addrs[12] = 3`, word 1 of block 3 is 4, word 2 of block 4 is 5, word 7
of block 5 is 6. -/
def c4Fs : Fs where
  addrs := fun j => if j = 12 then 3 else 0
  size := 0
  freel := []
  disk := fun b i =>
    if b = 3 ∧ i = 1 then 4
    else if b = 4 ∧ i = 2 then 5
    else if b = 5 ∧ i = 7 then 6
    else 0
  atime := 0

/-- C4 witness: block `b = 10 + 1024 + 1024² + (1024² + 2·1024 + 7)
= 2100241` lies in the triple-indirect region with residual
decomposition `(1, 2, 7)`; the chain `3 → 4 → 5` ends at data block 6. -/
theorem c4_bmap_thresholds_witness :
    (bmap c4Fs 2100241).map Prod.fst = some 6 := by
  have h := (c4_bmap_thresholds c4Fs 2100241).2.2.2.2.1
    (by decide) (by decide) (by decide) (by decide) (by decide) (by decide)
  rw [h]
  rfl

/-! ## C5 — reads and allocation -/

/-- Logical block `bn` of the inode is fully allocated: `bmap` locates
it without touching the state. -/
def mappedAt (s : Fs) (bn : Nat) : Prop :=
  ∃ a, a ≠ 0 ∧ bmap s bn = some (a, s)

theorem readLoop_all_mapped (rem : Nat) (s : Fs) (off tot : Nat)
    (H : ∀ bn, off / BSIZE ≤ bn → bn ≤ (off + rem - 1) / BSIZE → mappedAt s bn) :
    readLoop s off rem tot = some (tot + rem, s) := by
  rw [readLoop]
  by_cases h0 : rem = 0
  · subst h0; simp
  · rw [dif_neg h0]
    obtain ⟨a, ha, hbm⟩ :=
      H (off / BSIZE) le_rfl (Nat.div_le_div_right (by omega))
    rw [hbm]
    have hm1 : 1 ≤ min rem (BSIZE - off % BSIZE) := by
      have : off % BSIZE < BSIZE := Nat.mod_lt _ (by decide)
      omega
    have hmr : min rem (BSIZE - off % BSIZE) ≤ rem := Nat.min_le_left _ _
    simp only [ha, if_false, ite_false]
    set m := min rem (BSIZE - off % BSIZE) with hm
    have hrec := readLoop_all_mapped (rem - m) s (off + m) (tot + m)
      (by
        intro bn hlo hhi
        refine H bn (le_trans (Nat.div_le_div_right (by omega)) hlo) ?_
        have : off + m + (rem - m) = off + rem := by omega
        rw [this] at hhi
        exact hhi)
    rw [hrec]
    have : tot + m + (rem - m) = tot + rem := by omega
    rw [this]
termination_by rem
decreasing_by omega

theorem readLoop_empty_freel (rem : Nat) (s : Fs) (off tot : Nat)
    (hf : s.freel = []) (hub : off + rem ≤ MAXFILE * BSIZE) :
    ∃ t, readLoop s off rem tot = some (tot + t, s) ∧ t ≤ rem := by
  rw [readLoop]
  by_cases h0 : rem = 0
  · subst h0; exact ⟨0, by simp, le_rfl⟩
  · rw [dif_neg h0]
    have hlt : off / BSIZE < MAXFILE := by
      have hB : 0 < BSIZE := by decide
      rw [Nat.div_lt_iff_lt_mul hB]
      omega
    obtain ⟨a, hbm⟩ := bmap_empty_freel hf hlt
    rw [hbm]
    by_cases ha : a = 0
    · subst ha
      exact ⟨0, by simp, by omega⟩
    · simp only [ha, if_false, ite_false]
      have hm1 : 1 ≤ min rem (BSIZE - off % BSIZE) := by
        have : off % BSIZE < BSIZE := Nat.mod_lt _ (by decide)
        omega
      have hmr : min rem (BSIZE - off % BSIZE) ≤ rem := Nat.min_le_left _ _
      set m := min rem (BSIZE - off % BSIZE) with hm
      obtain ⟨t', ht', hle⟩ := readLoop_empty_freel (rem - m) s (off + m)
        (tot + m) hf (by omega)
      refine ⟨m + t', ?_, by omega⟩
      rw [ht']
      have : tot + m + t' = tot + (m + t') := by omega
      rw [this]
termination_by rem
decreasing_by omega

/-- A one-block inode whose direct slot 0 is a hole, with block 7
free. -/
def c5Fs : Fs where
  addrs := fun _ => 0
  size := BSIZE
  freel := [7]
  disk := fun _ _ => 0
  atime := 0

/-- C5, counterexample.  `readi` maps blocks through the same
allocating `bmap` the write path uses, so a read is not allocation
free: on an inode of size one block whose direct slot 0 is a hole and
with block 7 free, `readi(off = 0, n = 1)` allocates block 7 into
`addrs[0]` (consuming the free list) and returns 1 byte — the read does
not yield zero at the missing block, and `addrs` does not stay
unchanged. -/
theorem c5_read_allocates_counterexample :
    c5Fs.addrs 0 = 0 ∧ c5Fs.freel = [7] ∧
    (readi c5Fs 0 1).map (fun r => (r.1, r.2.addrs 0, r.2.freel)) =
      some (1, 7, []) := by
  refine ⟨rfl, rfl, ?_⟩
  simp [readi, readLoop, bmap, rootStep, balloc, c5Fs, BSIZE, NDIRECT]

/-- C5, amended: `readi` locates blocks through the same lazily
allocating `bmap` as `writei`, so a read of a missing block allocates
it rather than yielding zero (see the counterexample); the read aborts
early exactly where `bmap` hands back no block, which requires the free
list to be exhausted — and in that case, as well as when every accessed
block is already mapped, the read leaves the inode's block-pointer
array, the free list and the disk mapping unchanged (only the
access-time bookkeeping may change). -/
theorem c5_readi_amended (s : Fs) (off n : Nat)
    (hoff : off ≤ s.size) (hn : off + n < 2 ^ 32) :
    ((∀ bn, off / BSIZE ≤ bn →
        bn ≤ (off + (if off + n > s.size then s.size - off else n) - 1) / BSIZE →
        mappedAt s bn) →
      ∃ s', readi s off n =
          some ((if off + n > s.size then s.size - off else n), s') ∧
        s'.addrs = s.addrs ∧ s'.freel = s.freel ∧ s'.disk = s.disk) ∧
    (s.freel = [] → s.size ≤ MAXFILE * BSIZE →
      ∃ t s', readi s off n = some (t, s') ∧ t ≤ n ∧
        s'.addrs = s.addrs ∧ s'.freel = s.freel ∧ s'.disk = s.disk) := by
  have h32 : (2 : Nat) ^ 32 = 4294967296 := by norm_num
  have hguard : ¬(off > s.size ∨ (off + n) % 2 ^ 32 < off % 2 ^ 32) := by
    push_neg
    refine ⟨by omega, ?_⟩
    rw [h32]
    omega
  constructor
  · intro H
    rw [readi, if_neg hguard]
    set n' := if off + n > s.size then s.size - off else n with hn'
    rw [readLoop_all_mapped n' s off 0 H]
    dsimp only
    by_cases hz : 0 + n' > 0
    · rw [if_pos hz]
      exact ⟨{ s with atime := s.atime + 1 },
        by rw [Nat.zero_add], rfl, rfl, rfl⟩
    · rw [if_neg hz]
      exact ⟨s, by rw [Nat.zero_add], rfl, rfl, rfl⟩
  · intro hf hsz
    rw [readi, if_neg hguard]
    set n' := if off + n > s.size then s.size - off else n with hn'
    have hub : off + n' ≤ MAXFILE * BSIZE := by
      rw [hn']
      split_ifs with hc
      · omega
      · omega
    obtain ⟨t, ht, hle⟩ := readLoop_empty_freel n' s off 0 hf hub
    rw [ht]
    dsimp only
    have htn : t ≤ n := by
      rw [hn'] at hle
      by_cases hc : off + n > s.size
      · rw [if_pos hc] at hle; omega
      · rw [if_neg hc] at hle; omega
    by_cases hz : 0 + t > 0
    · rw [if_pos hz]
      exact ⟨t, { s with atime := s.atime + 1 },
        by rw [Nat.zero_add], htn, rfl, rfl, rfl⟩
    · rw [if_neg hz]
      exact ⟨t, s, by rw [Nat.zero_add], htn, rfl, rfl, rfl⟩

/-- A one-block file whose direct slot 0 holds block 9 (fully mapped),
and the hole state with an exhausted free list, for the C5 witness. -/
def c5Ok : Fs where
  addrs := fun j => if j = 0 then 9 else 0
  size := BSIZE
  freel := [7]
  disk := fun _ _ => 0
  atime := 0

def c5Empty : Fs :=
  { c5Fs with freel := [] }

/-- C5 witness for the amended theorem: a 5-byte read at offset 0 of
the fully mapped `c5Ok` returns 5 bytes and leaves `addrs`, the free
list and the disk mapping unchanged; on the hole state `c5Empty` the
read aborts with the state unchanged. -/
theorem c5_readi_amended_witness :
    (∃ s', readi c5Ok 0 5 = some (5, s') ∧ s'.addrs = c5Ok.addrs ∧
      s'.freel = c5Ok.freel ∧ s'.disk = c5Ok.disk) ∧
    (∃ t s', readi c5Empty 0 1 = some (t, s') ∧ t ≤ 1 ∧
      s'.addrs = c5Empty.addrs ∧ s'.freel = c5Empty.freel ∧
      s'.disk = c5Empty.disk) := by
  constructor
  · have h := (c5_readi_amended c5Ok 0 5 (by decide) (by norm_num)).1
    have hif : (if 0 + 5 > c5Ok.size then c5Ok.size - 0 else 5) = 5 := by decide
    rw [hif] at h
    have hmap : ∀ bn, 0 / BSIZE ≤ bn → bn ≤ (0 + 5 - 1) / BSIZE →
        mappedAt c5Ok bn := by
      intro bn _ hhi
      have hbn : bn = 0 := by
        have hd : (0 + 5 - 1) / BSIZE = 0 := by decide
        omega
      subst hbn
      refine ⟨9, by decide, ?_⟩
      rw [bmap_direct (by decide : (0 : Nat) < NDIRECT),
        rootStep_present (by decide : c5Ok.addrs 0 ≠ 0)]
      rfl
    exact h hmap
  · exact (c5_readi_amended c5Empty 0 1 (by decide) (by norm_num)).2
      rfl (by decide)

/-! ## C3 — symbolic-link loop bound -/

/-- A root directory (inode 1) holding two cross-linked symlinks:
`/l1` (inode 2) targets `"/l2"` and `/l2` (inode 3) targets `"/l1"`. -/
def cycleFs : SFs where
  typeOf := fun i =>
    if i = 1 then T_DIR
    else if i = 2 then T_SYMLINK
    else if i = 3 then T_SYMLINK
    else 0
  lookup := fun d nm =>
    if d = 1 ∧ nm = ['l', '1'] then some 2
    else if d = 1 ∧ nm = ['l', '2'] then some 3
    else none
  target := fun i =>
    if i = 2 then ['/', 'l', '2']
    else if i = 3 then ['/', 'l', '1'] else []

/-- C3, divergence witness.  Resolving `"/l1"` through the cross-linked
pair does not fail: after following `/l1` once, `namex` walks the
target `"/l2"` with its inner loop — which performs no symlink check
and no depth count — and then runs out of path, returning the symlink
inode 3 (`/l2`) as the result.  A cycle of length 2 ≤ 16 therefore
yields an inode instead of the required too-many-symbolic-links
failure, and the depth bound is never consulted. -/
theorem c3_symlink_cycle_resolves_to_inode :
    namei cycleFs ['/', 'l', '1'] ROOTINO = some 3 ∧
    cycleFs.typeOf 3 = T_SYMLINK := by
  constructor
  · simp [namei, namex, namexLoop, walkPlain, skipelem, cycleFs, DIRSIZ,
      ROOTINO, T_DIR, T_SYMLINK, MAX_SYMLINK_DEPTH]
  · rfl

/-! ## C10 — silent truncation of long path components -/

theorem pathNames_unfold (p : List Char) :
    pathNames p = (match skipelem p with
      | none => []
      | some (name, rest) => name :: pathNames rest) := by
  rw [pathNames]
  cases hs : skipelem p with
  | none => rfl
  | some nr => cases nr; rfl

theorem pathNames_none {p : List Char} (h : skipelem p = none) :
    pathNames p = [] := by
  rw [pathNames_unfold, h]

theorem pathNames_some {p name rest : List Char}
    (h : skipelem p = some (name, rest)) :
    pathNames p = name :: pathNames rest := by
  rw [pathNames_unfold, h]

theorem rawComponents_unfold (p : List Char) :
    rawComponents p = (match rawElem p with
      | none => []
      | some (elem, rest) => elem :: rawComponents rest) := by
  rw [rawComponents]
  cases hs : rawElem p with
  | none => rfl
  | some nr => cases nr; rfl

theorem rawComponents_none {p : List Char} (h : rawElem p = none) :
    rawComponents p = [] := by
  rw [rawComponents_unfold, h]

theorem rawComponents_some {p elem rest : List Char}
    (h : rawElem p = some (elem, rest)) :
    rawComponents p = elem :: rawComponents rest := by
  rw [rawComponents_unfold, h]

/-- The name `skipelem` stores is always the raw component truncated to
its first `DIRSIZ` bytes. -/
theorem skipelem_eq_rawElem (p : List Char) :
    skipelem p = (rawElem p).map (fun er => (er.1.take DIRSIZ, er.2)) := by
  simp only [skipelem, rawElem]
  cases hq : p.dropWhile (· = '/') with
  | nil => rfl
  | cons c cs =>
    simp only [List.isEmpty_cons, Bool.false_eq_true, if_false, Option.map_some']
    by_cases hl : ((c :: cs).takeWhile (· ≠ '/')).length ≥ DIRSIZ
    · rw [if_pos hl]
    · rw [if_neg hl, List.take_of_length_le (by omega)]

theorem pathNames_eq (p : List Char) :
    pathNames p = (rawComponents p).map (fun c => c.take DIRSIZ) := by
  cases hre : rawElem p with
  | none =>
    have hs : skipelem p = none := by rw [skipelem_eq_rawElem, hre]; rfl
    rw [pathNames_none hs, rawComponents_none hre]
    rfl
  | some er =>
    cases er with
    | mk elem rest =>
      have hs : skipelem p = some (elem.take DIRSIZ, rest) := by
        rw [skipelem_eq_rawElem, hre]; rfl
      rw [pathNames_some hs, rawComponents_some hre, List.map_cons,
        pathNames_eq rest]
termination_by p.length
decreasing_by exact rawElem_rest_lt hre

/-- The component walk driven only by the extracted name sequence. -/
def walkNames (fs : SFs) : Nat → List (List Char) → Option Nat
  | ip, [] => some ip
  | ip, n :: ns =>
    if fs.typeOf ip ≠ T_DIR then none
    else
      match fs.lookup ip n with
      | none => none
      | some next => walkNames fs next ns

theorem walkPlain_unfold (fs : SFs) (ip : Nat) (p : List Char) :
    walkPlain fs ip p = (match skipelem p with
      | none => some ip
      | some (name, rest) =>
        if fs.typeOf ip ≠ T_DIR then none
        else
          match fs.lookup ip name with
          | none => none
          | some next => walkPlain fs next rest) := by
  rw [walkPlain]
  cases hs : skipelem p with
  | none => rfl
  | some nr => cases nr; rfl

/-- `walkPlain` is a function of the truncated name sequence alone. -/
theorem walkPlain_eq_walkNames (fs : SFs) (ip : Nat) (p : List Char) :
    walkPlain fs ip p = walkNames fs ip (pathNames p) := by
  cases hs : skipelem p with
  | none => rw [walkPlain_unfold, hs, pathNames_none hs]; rfl
  | some nr =>
    cases nr with
    | mk name rest =>
      rw [walkPlain_unfold, hs, pathNames_some hs]
      dsimp only
      by_cases ht : fs.typeOf ip ≠ T_DIR
      · rw [walkNames, if_pos ht, if_pos ht]
      · rw [walkNames, if_neg ht, if_neg ht]
        cases hl : fs.lookup ip name with
        | none => rfl
        | some next =>
          exact walkPlain_eq_walkNames fs next rest
termination_by p.length
decreasing_by exact skipelem_rest_lt hs

theorem namexLoop_unfold (fs : SFs) (parent : Bool) (depth ip : Nat)
    (path : List Char) :
    namexLoop fs parent depth ip path = (match skipelem path with
      | none => if parent then none else some ip
      | some (name, rest) =>
        if fs.typeOf ip ≠ T_DIR then none
        else if parent ∧ rest.isEmpty then some ip
        else
          match fs.lookup ip name with
          | none => none
          | some next =>
            if fs.typeOf next = T_SYMLINK then
              if depth + 1 > MAX_SYMLINK_DEPTH then none
              else
                if (fs.target next).isEmpty then none
                else if (fs.target next).head? ≠ some '/' then none
                else
                  match walkPlain fs ROOTINO (fs.target next) with
                  | none => none
                  | some ip2 => namexLoop fs parent (depth + 1) ip2 rest
            else namexLoop fs parent depth next rest) := by
  rw [namexLoop]
  cases hs : skipelem path with
  | none => rfl
  | some nr => cases nr; rfl

/-- In `namei` mode (`parent = false`), `namex`'s main loop is also a
function of the truncated name sequence alone. -/
theorem namexLoop_names (fs : SFs) (depth ip : Nat) (p q : List Char)
    (h : pathNames p = pathNames q) :
    namexLoop fs false depth ip p = namexLoop fs false depth ip q := by
  cases hsp : skipelem p with
  | none =>
    cases hsq : skipelem q with
    | none => rw [namexLoop_unfold fs false depth ip p, hsp,
        namexLoop_unfold fs false depth ip q, hsq]
    | some nrq =>
      cases nrq with
      | mk nq rq =>
        rw [pathNames_none hsp, pathNames_some hsq] at h
        exact absurd h (by simp)
  | some nrp =>
    cases nrp with
    | mk np rp =>
      cases hsq : skipelem q with
      | none =>
        rw [pathNames_some hsp, pathNames_none hsq] at h
        exact absurd h (by simp)
      | some nrq =>
        cases nrq with
        | mk nq rq =>
          rw [pathNames_some hsp, pathNames_some hsq] at h
          obtain ⟨hname, htail⟩ := by simpa using h
          subst hname
          rw [namexLoop_unfold fs false depth ip p, hsp,
            namexLoop_unfold fs false depth ip q, hsq]
          dsimp only
          by_cases ht : fs.typeOf ip ≠ T_DIR
          · rw [if_pos ht, if_pos ht]
          · rw [if_neg ht, if_neg ht]
            simp only [Bool.false_eq_true, false_and, if_false, ite_false]
            cases hl : fs.lookup ip np with
            | none => rfl
            | some next =>
              dsimp only
              by_cases hsym : fs.typeOf next = T_SYMLINK
              · rw [if_pos hsym, if_pos hsym]
                by_cases hd : depth + 1 > MAX_SYMLINK_DEPTH
                · rw [if_pos hd, if_pos hd]
                · rw [if_neg hd, if_neg hd]
                  by_cases he : (fs.target next).isEmpty
                  · rw [if_pos he, if_pos he]
                  · rw [if_neg he, if_neg he]
                    by_cases hh : (fs.target next).head? ≠ some '/'
                    · rw [if_pos hh, if_pos hh]
                    · rw [if_neg hh, if_neg hh]
                      cases hw : walkPlain fs ROOTINO (fs.target next) with
                      | none => rfl
                      | some ip2 =>
                        exact namexLoop_names fs (depth + 1) ip2 rp rq htail
              · rw [if_neg hsym, if_neg hsym]
                exact namexLoop_names fs depth next rp rq htail
termination_by p.length
decreasing_by
  all_goals exact skipelem_rest_lt hsp

/-- C10: over-long path components are silently truncated, never
rejected.  The name `skipelem` hands to the directory lookup is always
the raw component cut to its first `DIRSIZ = 62` bytes — for a
component of length ≥ 62, exactly its first 62 bytes with no room for
a terminating NUL (the name is a full 62 bytes); no error outcome
exists.  Consequently two paths whose corresponding raw components
agree after this truncation produce identical name sequences, and both
the plain component walk and `namex`'s resolution loop (hence `namei`)
return the same inode for them against every file system. -/
theorem c10_component_truncation (fs : SFs) (ip depth : Nat)
    (p q : List Char)
    (hagree : (rawComponents p).map (fun c => c.take DIRSIZ) =
      (rawComponents q).map (fun c => c.take DIRSIZ)) :
    pathNames p = pathNames q ∧
    walkPlain fs ip p = walkPlain fs ip q ∧
    namexLoop fs false depth ip p = namexLoop fs false depth ip q ∧
    (∀ elem rest, rawElem p = some (elem, rest) → DIRSIZ ≤ elem.length →
      skipelem p = some (elem.take DIRSIZ, rest) ∧
      (elem.take DIRSIZ).length = DIRSIZ) := by
  have hnames : pathNames p = pathNames q := by
    rw [pathNames_eq, pathNames_eq, hagree]
  refine ⟨hnames, ?_, namexLoop_names fs depth ip p q hnames, ?_⟩
  · rw [walkPlain_eq_walkNames, walkPlain_eq_walkNames, hnames]
  · intro elem rest hre hlen
    constructor
    · rw [skipelem_eq_rawElem, hre]
      rfl
    · rw [List.length_take]
      omega

/-- A 63-byte component and a 64-byte component agreeing on their first
62 bytes, and a directory in which the truncated 62-byte name exists. -/
def longA : List Char := List.replicate 63 'a'

def longB : List Char := List.replicate 62 'a' ++ ['b', 'b']

def pLong : List Char := '/' :: longA

def qLong : List Char := '/' :: longB

def truncFs : SFs where
  typeOf := fun i => if i = 1 then T_DIR else T_FILE
  lookup := fun d nm =>
    if d = 1 ∧ nm = List.replicate 62 'a' then some 5 else none
  target := fun _ => []

/-- C10 witness: `"/" ++ 63×'a'` and `"/" ++ 62×'a' ++ "bb"` agree on
the first 62 bytes of their single component, so both resolve to
inode 5 in `truncFs`; the 63-byte component is cut to exactly its
first 62 bytes. -/
theorem c10_component_truncation_witness :
    walkPlain truncFs ROOTINO pLong = walkPlain truncFs ROOTINO qLong ∧
    walkPlain truncFs ROOTINO pLong = some 5 ∧
    namexLoop truncFs false 0 ROOTINO pLong =
      namexLoop truncFs false 0 ROOTINO qLong ∧
    skipelem pLong = some (List.replicate 62 'a', []) ∧
    (List.replicate 63 'a').take DIRSIZ = List.replicate 62 'a' := by
  have hreP : rawElem pLong = some (longA, []) := by decide
  have hreQ : rawElem qLong = some (longB, []) := by decide
  have hrcP : rawComponents pLong = [longA] := by
    rw [rawComponents_some hreP, rawComponents_none (by decide)]
  have hrcQ : rawComponents qLong = [longB] := by
    rw [rawComponents_some hreQ, rawComponents_none (by decide)]
  have hagree : (rawComponents pLong).map (fun c => c.take DIRSIZ) =
      (rawComponents qLong).map (fun c => c.take DIRSIZ) := by
    rw [hrcP, hrcQ]
    decide
  have h := c10_component_truncation truncFs ROOTINO 0 pLong qLong hagree
  obtain ⟨hnames, hwalk, hnamex, htrunc⟩ := h
  have hskip := htrunc longA [] hreP (by decide)
  refine ⟨hwalk, ?_, hnamex, ?_, by decide⟩
  · have hs : skipelem pLong = some (List.replicate 62 'a', []) := by
      rw [hskip.1]
      decide
    rw [walkPlain_unfold, hs]
    dsimp only
    rw [if_neg (by decide),
      show truncFs.lookup ROOTINO (List.replicate 62 'a') = some 5 by decide]
    dsimp only
    rw [walkPlain_unfold]
    decide
  · rw [hskip.1]
    decide

end Xv6
